import Mathlib

/-!
Verification development for the `image-viewer` repository (src/main.rs).

The core under study is the backup subsystem: `calculate_file_hash` (streamed
SHA-256 of a file, lowercase hex), `create_backup` (content-addressed,
deduplicating copy into a `.safety_net` sidecar directory with an append-only
`index.txt`), plus the HTTP handlers that call it (`delete_file_handler`,
`rename_file_handler`) and the directory-listing filter.

Modelling choices:
- byte values are `Nat` (each < 256 where it matters), 32-bit words are `Nat`
  reduced modulo 2 ^ 32;
- paths are lists of components (`Path::parent` of the empty path is `none`,
  matching Rust's `None` for a root path);
- the filesystem is an association list from paths to byte contents, plus a
  set of existing directories and a set of paths on which the OS denies
  operations (modelling permission errors, the one IO failure class the spec
  discusses);
- the `sha2` crate's incremental `Digest` state is modelled as the list of
  bytes absorbed so far; `finalize` applies the SHA-256 function to it.
-/

namespace ImageViewer

set_option maxRecDepth 8000

/-! ## 32-bit word arithmetic for SHA-256 -/

def mask32 (x : Nat) : Nat := x % 4294967296

def add32 (a b : Nat) : Nat := (a + b) % 4294967296

/-- Rotate a 32-bit word right by `n` (for `x < 2 ^ 32`, `n ≤ 32`). -/
def rotr32 (n x : Nat) : Nat := mask32 ((x >>> n) ||| (x <<< (32 - n)))

def smallSigma0 (x : Nat) : Nat := (rotr32 7 x) ^^^ (rotr32 18 x) ^^^ (x >>> 3)

def smallSigma1 (x : Nat) : Nat := (rotr32 17 x) ^^^ (rotr32 19 x) ^^^ (x >>> 10)

def bigSigma0 (x : Nat) : Nat := (rotr32 2 x) ^^^ (rotr32 13 x) ^^^ (rotr32 22 x)

def bigSigma1 (x : Nat) : Nat := (rotr32 6 x) ^^^ (rotr32 11 x) ^^^ (rotr32 25 x)

/-- Bitwise complement on 32-bit words. -/
def not32 (x : Nat) : Nat := x ^^^ 4294967295

def chWord (x y z : Nat) : Nat := (x &&& y) ^^^ (not32 x &&& z)

def majWord (x y z : Nat) : Nat := (x &&& y) ^^^ (x &&& z) ^^^ (y &&& z)

/-! ## SHA-256 -/

/-- The 64 SHA-256 round constants. -/
def sha256K : List Nat :=
  [1116352408, 1899447441, 3049323471, 3921009573, 961987163, 1508970993,
   2453635748, 2870763221, 3624381080, 310598401, 607225278, 1426881987,
   1925078388, 2162078206, 2614888103, 3248222580, 3835390401, 4022224774,
   264347078, 604807628, 770255983, 1249150122, 1555081692, 1996064986,
   2554220882, 2821834349, 2952996808, 3210313671, 3336571891, 3584528711,
   113926993, 338241895, 666307205, 773529912, 1294757372, 1396182291,
   1695183700, 1986661051, 2177026350, 2456956037, 2730485921, 2820302411,
   3259730800, 3345764771, 3516065817, 3600352804, 4094571909, 275423344,
   430227734, 506948616, 659060556, 883997877, 958139571, 1322822218,
   1537002063, 1747873779, 1955562222, 2024104815, 2227730452, 2361852424,
   2428436474, 2756734187, 3204031479, 3329325298]

/-- The eight SHA-256 working variables / chaining values. -/
structure Hash8 where
  a : Nat
  b : Nat
  c : Nat
  d : Nat
  e : Nat
  f : Nat
  g : Nat
  h : Nat
deriving Repr, DecidableEq

def sha256Init : Hash8 :=
  ⟨1779033703, 3144134277, 1013904242, 2773480762,
   1359893119, 2600822924, 528734635, 1541459225⟩

/-- One SHA-256 compression round with round constant `ki` and schedule word `wi`. -/
def sha256Round (st : Hash8) (ki wi : Nat) : Hash8 :=
  let t1 := add32 st.h (add32 (bigSigma1 st.e) (add32 (chWord st.e st.f st.g) (add32 ki wi)))
  let t2 := add32 (bigSigma0 st.a) (majWord st.a st.b st.c)
  ⟨add32 t1 t2, st.a, st.b, st.c, add32 st.d t1, st.e, st.f, st.g⟩

/-- Extend the message schedule by up to `fuel` further words (structural
recursion on the fuel so that the kernel can evaluate it). -/
def extendScheduleAux : Nat → List Nat → List Nat
  | 0, w => w
  | fuel + 1, w =>
      if 64 ≤ w.length then w
      else
        extendScheduleAux fuel (w ++
          [add32 (add32 (smallSigma1 (w.getD (w.length - 2) 0)) (w.getD (w.length - 7) 0))
                 (add32 (smallSigma0 (w.getD (w.length - 15) 0)) (w.getD (w.length - 16) 0))])

/-- Extend the 16 message-schedule words to 64. -/
def extendSchedule (w : List Nat) : List Nat := extendScheduleAux 64 w

/-- Big-endian 32-bit words from a list of bytes (groups of four). -/
def bytesToWords : List Nat → List Nat
  | b0 :: b1 :: b2 :: b3 :: rest =>
      (((b0 * 256 + b1) * 256 + b2) * 256 + b3) :: bytesToWords rest
  | _ => []

/-- `n` bytes of `v`, big-endian. -/
def natToBytesBE : Nat → Nat → List Nat
  | 0, _ => []
  | m + 1, v => natToBytesBE m (v / 256) ++ [v % 256]

/-- SHA-256 padding: append `0x80`, zeros to 56 mod 64, then the 64-bit
big-endian bit length. -/
def sha256Pad (msg : List Nat) : List Nat :=
  let zeros := (120 - ((msg.length + 1) % 64)) % 64
  msg ++ [128] ++ List.replicate zeros 0 ++ natToBytesBE 8 (msg.length * 8)

/-- Split a byte list into 64-byte blocks, with fuel for structural
recursion (the fuel bounds the number of blocks). -/
def splitBlocksAux : Nat → List Nat → List (List Nat)
  | 0, _ => []
  | fuel + 1, bs => if bs = [] then [] else bs.take 64 :: splitBlocksAux fuel (bs.drop 64)

/-- Split a padded message into 64-byte blocks. -/
def splitBlocks (bs : List Nat) : List (List Nat) := splitBlocksAux bs.length bs

/-- Compress one 64-byte block into the chaining state. -/
def compressBlock (st : Hash8) (block : List Nat) : Hash8 :=
  let w := extendSchedule (bytesToWords block)
  let r := (sha256K.zip w).foldl (fun s kw => sha256Round s kw.1 kw.2) st
  ⟨add32 st.a r.a, add32 st.b r.b, add32 st.c r.c, add32 st.d r.d,
   add32 st.e r.e, add32 st.f r.f, add32 st.g r.g, add32 st.h r.h⟩

/-- SHA-256 of a byte list, as its 32 digest bytes. -/
def sha256 (msg : List Nat) : List Nat :=
  let st := (splitBlocks (sha256Pad msg)).foldl compressBlock sha256Init
  natToBytesBE 4 st.a ++ natToBytesBE 4 st.b ++ natToBytesBE 4 st.c ++
  natToBytesBE 4 st.d ++ natToBytesBE 4 st.e ++ natToBytesBE 4 st.f ++
  natToBytesBE 4 st.g ++ natToBytesBE 4 st.h

/-! ## Lowercase hex encoding (Rust's LowerHex for a digest) -/

/-- Lowercase hex digit for `n < 16`. -/
def hexDigitChar (n : Nat) : Char :=
  if n < 10 then Char.ofNat (48 + n) else Char.ofNat (87 + n)

/-- Two lowercase hex digits for one byte. -/
def byteToHex (b : Nat) : List Char := [hexDigitChar (b / 16 % 16), hexDigitChar (b % 16)]

/-- The sixteen lowercase hexadecimal digits. -/
def hexDigits : List Char := "0123456789abcdef".data

/-- Lowercase hexadecimal string of a byte list. -/
def bytesToHexLower (bs : List Nat) : String := ⟨(bs.map byteToHex).flatten⟩

/-! ## calculate_file_hash (src/main.rs lines 60-74)

The Rust code opens the file, then loops: read up to 8192 bytes; if zero bytes
were read, stop; otherwise feed the chunk to the hasher. The hasher state is
modelled as the bytes absorbed so far; the loop is modelled on the file's
remaining bytes. -/

/-- The read-and-update loop of `calculate_file_hash`: `remaining` is what is
left of the file, `absorbed` the bytes fed to the hasher so far. A `read`
that returns zero bytes (empty `remaining`) breaks the loop; otherwise up to
8192 bytes are consumed and absorbed. The fuel (initially the file length)
bounds the number of reads for structural recursion; each non-final read
consumes at least one byte, so it never runs out first. -/
def hashReadLoop : Nat → List Nat → List Nat → List Nat
  | _, [], absorbed => absorbed
  | 0, remaining, absorbed => absorbed ++ remaining
  | fuel + 1, remaining, absorbed =>
      hashReadLoop fuel (remaining.drop 8192) (absorbed ++ remaining.take 8192)

/-- `calculate_file_hash` on a file whose byte content is `content`:
stream 8192-byte chunks through SHA-256, then format the digest as
lowercase hex. -/
def calculate_file_hash (content : List Nat) : String :=
  bytesToHexLower (sha256 (hashReadLoop content.length content []))

/-- Spec-side definition for the refinement claim C4, following the spec's
words: the lowercase hexadecimal SHA-256 digest of the file's entire byte
content hashed at once. -/
def specWholeContentHash (content : List Nat) : String :=
  bytesToHexLower (sha256 content)

/-! ## Strings, bytes and Rust's `str::lines` -/

def strToBytes (s : String) : List Nat := s.data.map Char.toNat

/-- Rust `fs::read_to_string` succeeds only on valid UTF-8. The index files
this program writes are pure ASCII, so the model decodes ASCII (a subset of
UTF-8) and treats everything else as a read failure. -/
def asciiDecode (bs : List Nat) : Option String :=
  if bs.all (· < 128) then some ⟨bs.map Char.ofNat⟩ else none

/-- Split a character list at every newline (an accumulator-based split; the
final piece is always emitted). -/
def splitNlAux : List Char → List Char → List (List Char)
  | [], acc => [acc.reverse]
  | c :: cs, acc =>
      if c = '\n' then acc.reverse :: splitNlAux cs [] else splitNlAux cs (c :: acc)

/-- Strip one trailing carriage return, as Rust's `str::lines` does. -/
def stripCr (cs : List Char) : List Char :=
  if cs.getLast? = some '\r' then cs.dropLast else cs

/-- Rust `str::lines`: split on `'\n'`, drop a final empty piece (so a
trailing newline adds no empty line), strip a trailing `'\r'` per line. -/
def rustLines (s : String) : List String :=
  let parts := splitNlAux s.data []
  let parts := if parts.getLast? = some [] then parts.dropLast else parts
  parts.map fun cs => ⟨stripCr cs⟩

/-! ## Paths -/

/-- A filesystem path as its list of components. -/
abbrev FsPath := List String

/-- Rust `Path::parent`: `None` for a root or empty path, otherwise the path
without its last component. -/
def pathParent (p : FsPath) : Option FsPath :=
  if p = [] then none else some p.dropLast

/-- Rust `Path::file_name`: the last component. -/
def pathFileName (p : FsPath) : Option String := p.getLast?

/-- Index of the last `'.'` in a character list, if any. -/
def lastDotIdx (cs : List Char) : Option Nat :=
  (List.range cs.length).foldl (fun acc i => if cs.getD i ' ' = '.' then some i else acc) none

/-- Rust `Path::file_stem` / `Path::extension` on a file name: split at the
last `'.'`; a name with no dot, or whose only dot is the leading one
(a hidden file), has no extension and is its own stem. -/
def fileStemExt (name : String) : String × Option String :=
  match lastDotIdx name.data with
  | none => (name, none)
  | some 0 => (name, none)
  | some i => (⟨name.data.take i⟩, some ⟨name.data.drop (i + 1)⟩)

/-- The backup filename derivation of `create_backup` (src/main.rs lines
99-112): stem, an underscore, the first 8 bytes of the hex hash, then the
original extension, or the fallback suffix ".bak" when the extension is
absent or empty. The Rust hash slice `[..8]` is a byte slice; the hash is
ASCII hex, so it equals the first 8 characters. -/
def backup_filename (name : String) (file_hash : String) : String :=
  let file_stem := (fileStemExt name).1
  let file_extension := ((fileStemExt name).2).getD ""
  let hash8 : String := ⟨file_hash.data.take 8⟩
  if file_extension = "" then
    file_stem ++ "_" ++ hash8 ++ ".bak"
  else
    file_stem ++ "_" ++ hash8 ++ "." ++ file_extension

/-! ## The filesystem model -/

def safetyNetName : String := ".safety_net"

def indexFileName : String := "index.txt"

/-- IO error classes relevant to the modelled operations. -/
inductive IoErr where
  | noParentDir
  | notFound (p : FsPath)
  | permissionDenied (p : FsPath)
  | invalidUtf8
deriving Repr, DecidableEq

/-- Association-list lookup over path-keyed files. -/
def lookupA : List (FsPath × List Nat) → FsPath → Option (List Nat)
  | [], _ => none
  | e :: rest, p => if e.1 = p then some e.2 else lookupA rest p

/-- Association-list update (in place when the key exists, appended at the
front otherwise... keys keep their original order). -/
def setA : List (FsPath × List Nat) → FsPath → List Nat → List (FsPath × List Nat)
  | [], p, v => [(p, v)]
  | e :: rest, p, v => if e.1 = p then (p, v) :: rest else e :: setA rest p v

/-- Association-list removal. -/
def removeA : List (FsPath × List Nat) → FsPath → List (FsPath × List Nat)
  | [], _ => []
  | e :: rest, p => if e.1 = p then removeA rest p else e :: removeA rest p

/-- The filesystem: regular files with byte contents, existing directories,
and paths on which the OS denies operations (modelling permission errors). -/
structure FS where
  files : List (FsPath × List Nat)
  dirs : List FsPath
  denied : List FsPath
deriving Repr, DecidableEq

def FS.lookupFile (fs : FS) (p : FsPath) : Option (List Nat) := lookupA fs.files p

/-- Reading a file's bytes: fails (`none`) when the path is denied or is not
a regular file. -/
def FS.readFile (fs : FS) (p : FsPath) : Option (List Nat) :=
  if p ∈ fs.denied then none else lookupA fs.files p

def FS.isFile (fs : FS) (p : FsPath) : Bool := (lookupA fs.files p).isSome

def FS.writeFile (fs : FS) (p : FsPath) (v : List Nat) : FS :=
  { fs with files := setA fs.files p v }

/-- `fs::create_dir_all`: fails on a denied path; otherwise records the
directory (idempotent). -/
def FS.create_dir_all (fs : FS) (d : FsPath) : Except IoErr FS :=
  if d ∈ fs.denied then .error (.permissionDenied d)
  else .ok { fs with dirs := if d ∈ fs.dirs then fs.dirs else d :: fs.dirs }

/-- `fs::remove_file`. -/
def FS.remove_file (fs : FS) (p : FsPath) : Except IoErr FS :=
  if p ∈ fs.denied then .error (.permissionDenied p)
  else if (lookupA fs.files p).isSome then .ok { fs with files := removeA fs.files p }
  else .error (.notFound p)

def FS.pathExists (fs : FS) (p : FsPath) : Bool :=
  (lookupA fs.files p).isSome || decide (p ∈ fs.dirs)

/-! ## create_backup (src/main.rs lines 77-128) -/

/-- The copy-then-append tail of `create_backup` (src/main.rs lines 99-127),
reached when the hash was not found in the index: derive the backup filename,
copy the file into the sidecar, then append the hash to the index (append
mode, creating the index when missing). -/
def copyAndIndex (fs : FS) (file_path : FsPath) (content : List Nat)
    (file_hash : String) (backup_dir index_path : FsPath) : Except IoErr Unit × FS :=
  let name := (pathFileName file_path).getD "file"
  let bname := backup_filename name file_hash
  let backup_path := backup_dir ++ [bname]
  if backup_path ∈ fs.denied then (.error (.permissionDenied backup_path), fs)
  else
    let fs2 := fs.writeFile backup_path content
    if index_path ∈ fs2.denied then (.error (.permissionDenied index_path), fs2)
    else
      let old := (lookupA fs2.files index_path).getD []
      (.ok (), fs2.writeFile index_path (old ++ strToBytes file_hash ++ [10]))

/-- `create_backup` (src/main.rs lines 77-128), as a state-passing function:
resolve the parent (error when there is none), create `parent/.safety_net`,
hash the file, return success at once on an index hit, otherwise copy the
file into the sidecar and append the hash to the index. The second component
is the filesystem after the call, including partial effects of a failed
call. -/
def create_backup (fs : FS) (file_path : FsPath) : Except IoErr Unit × FS :=
  match pathParent file_path with
  | none => (.error .noParentDir, fs)
  | some parent_dir =>
    let backup_dir := parent_dir ++ [safetyNetName]
    match fs.create_dir_all backup_dir with
    | .error e => (.error e, fs)
    | .ok fs1 =>
      match fs1.readFile file_path with
      | none => (.error (.notFound file_path), fs1)
      | some content =>
        let file_hash := calculate_file_hash content
        let index_path := backup_dir ++ [indexFileName]
        if fs1.pathExists index_path then
          match fs1.readFile index_path with
          | none => (.error (.permissionDenied index_path), fs1)
          | some ibytes =>
            match asciiDecode ibytes with
            | none => (.error .invalidUtf8, fs1)
            | some itext =>
              if (rustLines itext).any (fun line => line = file_hash) then (.ok (), fs1)
              else copyAndIndex fs1 file_path content file_hash backup_dir index_path
        else copyAndIndex fs1 file_path content file_hash backup_dir index_path

/-! ## delete_file_handler (src/main.rs lines 256-276) -/

/-- The HTTP status codes the handlers use. -/
inductive Status where
  | ok200
  | notFound404
  | badRequest400
  | internalServerError500
  | conflict409
deriving Repr, DecidableEq

/-- `delete_file_handler`: 404 when the target is not an existing regular
file; otherwise run `create_backup`, ignore its result apart from a warning
log, then remove the file (500 if removal fails, 200 on success). -/
def delete_file_handler (fs : FS) (path : FsPath) : Except Status Status × FS :=
  if ¬ fs.isFile path then (.error .notFound404, fs)
  else
    let r := create_backup fs path
    match (r.2).remove_file path with
    | .error _ => (.error .internalServerError500, r.2)
    | .ok fs2 => (.ok .ok200, fs2)

/-! ## Directory listing (src/main.rs lines 141-211) -/

/-- Rust's `str::to_lowercase`, character-wise (the ASCII range, which covers
every name the comparisons here are applied to). -/
def toLowerStr (s : String) : String := ⟨s.data.map Char.toLower⟩

def IMAGE_EXTENSIONS : List String :=
  ["jpg", "jpeg", "png", "gif", "bmp", "avif", "webp", "tiff", "svg", "ico"]

/-- `is_image_file` (src/main.rs lines 131-139): the lowercased extension is
one of the supported image extensions. (Rust's `to_lowercase` is Unicode;
`String.toLower` agrees on the ASCII names at issue.) -/
def is_image_file (name : String) : Bool :=
  match (fileStemExt name).2 with
  | some ext => IMAGE_EXTENSIONS.contains (toLowerStr ext)
  | none => false

/-- An entry of a directory listing response (the `path` echo field is
omitted; it carries no information beyond the name). -/
structure DirectoryEntry where
  name : String
  is_dir : Bool
  is_image : Bool
deriving Repr, DecidableEq

/-- Rust's `name_str.starts_with('.')`: the first character is a dot. -/
def startsWithDot (name : String) : Bool := name.data.head? == some '.'

/-- The entry-collection loop of `list_directory_handler` (src/main.rs lines
163-188): skip names starting with a dot, keep directories and images. -/
def collectEntries : List (String × Bool) → List DirectoryEntry
  | [] => []
  | (name, d) :: rest =>
      if startsWithDot name then collectEntries rest
      else
        let is_image := !d && is_image_file name
        if d || is_image then ⟨name, d, is_image⟩ :: collectEntries rest
        else collectEntries rest

/-- The comparator of the `sort_by` call (src/main.rs lines 191-197):
directories first, then case-insensitive name order. -/
def entryLe (a b : DirectoryEntry) : Bool :=
  match a.is_dir, b.is_dir with
  | true, false => true
  | false, true => false
  | _, _ => toLowerStr a.name ≤ toLowerStr b.name

/-- The listing computation of `list_directory_handler` on the raw
`(name, is_dir)` entries read from the directory. -/
def list_directory_entries (raw : List (String × Bool)) : List DirectoryEntry :=
  (collectEntries raw).mergeSort entryLe

/-! ## Derived notions used by the statements -/

instance {ε α : Type} [DecidableEq ε] [DecidableEq α] : DecidableEq (Except ε α) := fun x y =>
  match x, y with
  | .ok a, .ok b =>
      if h : a = b then .isTrue (by rw [h]) else .isFalse (fun hh => h (Except.ok.inj hh))
  | .error a, .error b =>
      if h : a = b then .isTrue (by rw [h]) else .isFalse (fun hh => h (Except.error.inj hh))
  | .ok _, .error _ => .isFalse (fun hh => Except.noConfusion hh)
  | .error _, .ok _ => .isFalse (fun hh => Except.noConfusion hh)

/-- The sidecar directory of a parent directory `d`. -/
def sidecarOf (d : FsPath) : FsPath := d ++ [safetyNetName]

/-- The index file of the sidecar of `d`. -/
def indexPathOf (d : FsPath) : FsPath := d ++ [safetyNetName, indexFileName]

/-- The hash lines recorded in the sidecar index of directory `d` (empty when
the index is absent or unreadable). -/
def indexLinesOf (fs : FS) (d : FsPath) : List String :=
  match lookupA fs.files (indexPathOf d) with
  | none => []
  | some bs =>
    match asciiDecode bs with
    | none => []
    | some s => rustLines s

/-- The byte content of an index holding exactly the lines `L`, each
newline-terminated (what a sequence of `writeln!` calls produces). -/
def linesBytes (L : List String) : List Nat :=
  (L.map fun l => strToBytes l ++ [10]).flatten

/-- A string that round-trips as one index line: ASCII with no newline and no
carriage return. -/
def goodLine (s : String) : Prop :=
  ∀ c ∈ s.data, c.toNat < 128 ∧ c ≠ '\n' ∧ c ≠ '\r'

/-- The sidecar index of directory `d` is absent, or is exactly a sequence of
newline-terminated well-formed lines (true of every index this program
writes). -/
def IndexWF (fs : FS) (d : FsPath) : Prop :=
  lookupA fs.files (indexPathOf d) = none ∨
  ∃ L, lookupA fs.files (indexPathOf d) = some (linesBytes L) ∧ ∀ l ∈ L, goodLine l

/-- The spec's index invariant: every hash line of every sidecar index has a
corresponding backup file — a regular file in that sidecar, other than the
index, whose derived name embeds the hash. -/
def BackupInv (fs : FS) : Prop :=
  ∀ d h, h ∈ indexLinesOf fs d →
    ∃ n, n ≠ indexFileName ∧ (∃ src, n = backup_filename src h) ∧
      (lookupA fs.files (d ++ [safetyNetName, n])).isSome = true

/-- The paths of the regular files directly inside the sidecar of `d`, the
index file excepted: the backup files of that sidecar. -/
def backupFilesIn (fs : FS) (d : FsPath) : List FsPath :=
  (fs.files.map Prod.fst).filter fun q =>
    decide (q.dropLast = sidecarOf d) && !(q == indexPathOf d)

/-! ## Concrete states used by witnesses -/

/-- The SHA-256 hex digest of the five bytes of "hello", used by the
concrete witness states below. -/
def helloHash : String := "2cf24dba5fb0a30e26e83b2ac5b9e29e1b161e5c1fa7425e73043362938b9824"

/-- A state where `photo.jpg` (content "hello") has already been backed up:
its hash is the one index line. -/
def fsDedup : FS :=
  ⟨[(["photo.jpg"], strToBytes "hello"),
    ([".safety_net", "index.txt"], strToBytes (helloHash ++ "\n"))],
   [[".safety_net"]], []⟩

/-- A state with `photo.jpg` (content "hello") and no sidecar yet. -/
def fsFresh : FS := ⟨[(["photo.jpg"], strToBytes "hello")], [[]], []⟩

/-- A state with an extensionless file `README` (content "hello") and no
sidecar yet. -/
def fsReadme : FS := ⟨[(["README"], strToBytes "hello")], [[]], []⟩

/-- A state with `a.txt` (content "hello") where creating the sidecar
directory is denied (permission error). -/
def fsDeniedDir : FS := ⟨[(["a.txt"], strToBytes "hello")], [[]], [[".safety_net"]]⟩

/-- A fully backed-up state: `photo.jpg`, its backup copy, and the index
holding its hash. -/
def fsFull : FS :=
  ⟨[(["photo.jpg"], strToBytes "hello"),
    ([".safety_net", "photo_2cf24dba.jpg"], strToBytes "hello"),
    ([".safety_net", "index.txt"], strToBytes (helloHash ++ "
"))],
   [[".safety_net"]], []⟩

/-- The SHA-256 hex digest of the bytes of "x51620"; it shares its first 8
hex characters with the digest of "x73891" while the full digests differ. -/
def collideHashA : String := "05ffbb92528f0160f15db457419e0cc2e03a32d9d744c62fbfb5cb89e70139d7"

/-- A state reachable by backing up `a.txt` when its content was "x51620"
(hence the sidecar holds `a_05ffbb92.txt` and the index holds that content's
hash) and then changing `a.txt` to "x73891", whose hash shares the first 8
hex characters but differs in full. -/
def fsCollide : FS :=
  ⟨[(["a.txt"], strToBytes "x73891"),
    ([".safety_net", "a_05ffbb92.txt"], strToBytes "x51620"),
    ([".safety_net", "index.txt"], strToBytes (collideHashA ++ "
"))],
   [[".safety_net"]], []⟩

/-! # Theorems

## Hashing -/

theorem hashReadLoop_eq (fuel : Nat) : ∀ r a : List Nat, r.length ≤ fuel →
    hashReadLoop fuel r a = a ++ r := by
  induction fuel with
  | zero =>
    intro r a h
    cases r with
    | nil => simp [hashReadLoop]
    | cons x xs => simp at h
  | succ n ih =>
    intro r a h
    cases r with
    | nil => simp [hashReadLoop]
    | cons x xs =>
      have hlen : ((x :: xs).drop 8192).length ≤ n := by
        simp only [List.length_drop, List.length_cons] at h ⊢
        omega
      rw [show hashReadLoop (n + 1) (x :: xs) a
            = hashReadLoop n ((x :: xs).drop 8192) (a ++ (x :: xs).take 8192) from rfl]
      rw [ih _ _ hlen]
      rw [List.append_assoc, List.take_append_drop]

theorem calculate_file_hash_eq (content : List Nat) :
    calculate_file_hash content = bytesToHexLower (sha256 content) := by
  unfold calculate_file_hash
  rw [hashReadLoop_eq content.length content [] (le_refl _)]
  rfl

/-- C4: the content hash computed by `calculate_file_hash`, which reads the
file in fixed-size 8192-byte chunks and feeds each chunk to SHA-256, equals
the lowercase hexadecimal SHA-256 digest of the file's entire byte content
hashed at once. -/
theorem chunked_hash_eq_whole_hash (content : List Nat) :
    calculate_file_hash content = specWholeContentHash content :=
  calculate_file_hash_eq content

theorem natToBytesBE_length (n : Nat) : ∀ v : Nat, (natToBytesBE n v).length = n := by
  induction n with
  | zero => intro v; rfl
  | succ m ih => intro v; simp [natToBytesBE, ih]

theorem sha256_length (msg : List Nat) : (sha256 msg).length = 32 := by
  simp [sha256, natToBytesBE_length]

theorem bytesToHexLower_data (bs : List Nat) :
    (bytesToHexLower bs).data = (bs.map byteToHex).flatten := rfl

theorem bytesToHexLower_length (bs : List Nat) :
    (bytesToHexLower bs).length = 2 * bs.length := by
  show ((bs.map byteToHex).flatten).length = 2 * bs.length
  induction bs with
  | nil => rfl
  | cons b rest ih =>
    simp only [List.map_cons, List.flatten_cons, List.length_append, ih, byteToHex,
      List.length_cons, List.length_nil]
    omega

theorem hexDigitChar_facts (n : Nat) (h : n < 16) :
    (hexDigitChar n).toNat < 128 ∧ hexDigitChar n ≠ '\n' ∧ hexDigitChar n ≠ '\r' ∧
    hexDigitChar n ∈ hexDigits := by
  interval_cases n <;> exact ⟨by decide, by decide, by decide, by decide⟩

theorem byteToHex_chars (b : Nat) (c : Char) (hc : c ∈ byteToHex b) :
    c.toNat < 128 ∧ c ≠ '\n' ∧ c ≠ '\r' ∧ c ∈ hexDigits := by
  simp only [byteToHex, List.mem_cons, List.not_mem_nil, or_false] at hc
  rcases hc with h | h <;> subst h
  · exact hexDigitChar_facts _ (Nat.mod_lt _ (by norm_num))
  · exact hexDigitChar_facts _ (Nat.mod_lt _ (by norm_num))

theorem calculate_file_hash_chars (content : List Nat) :
    ∀ c ∈ (calculate_file_hash content).data,
      c.toNat < 128 ∧ c ≠ '\n' ∧ c ≠ '\r' ∧ c ∈ hexDigits := by
  intro c hc
  rw [calculate_file_hash_eq, bytesToHexLower_data] at hc
  rw [List.mem_flatten] at hc
  obtain ⟨l, hl, hcl⟩ := hc
  rw [List.mem_map] at hl
  obtain ⟨b, _, rfl⟩ := hl
  exact byteToHex_chars b c hcl

theorem calculate_file_hash_length (content : List Nat) :
    (calculate_file_hash content).length = 64 := by
  rw [calculate_file_hash_eq, bytesToHexLower_length, sha256_length]

theorem goodLine_hash (content : List Nat) : goodLine (calculate_file_hash content) := by
  intro c hc
  have h := calculate_file_hash_chars content c hc
  exact ⟨h.1, h.2.1, h.2.2.1⟩

/-- C10: the string slice `file_hash[..8]` in `create_backup` never panics:
`calculate_file_hash` always returns a 64-character string of (ASCII)
hexadecimal digits, so byte index 8 is in bounds and on a character
boundary. -/
theorem hash_slice_in_bounds (content : List Nat) :
    (calculate_file_hash content).length = 64 ∧
    8 ≤ (calculate_file_hash content).length ∧
    ∀ c ∈ (calculate_file_hash content).data, c.toNat < 128 ∧ c ∈ hexDigits := by
  refine ⟨calculate_file_hash_length content, ?_, ?_⟩
  · rw [calculate_file_hash_length]; omega
  · intro c hc
    have h := calculate_file_hash_chars content c hc
    exact ⟨h.1, h.2.2.2⟩


/-! ## Association lists -/

theorem lookupA_setA_self (l : List (FsPath × List Nat)) (p : FsPath) (v : List Nat) :
    lookupA (setA l p v) p = some v := by
  induction l with
  | nil => simp [setA, lookupA]
  | cons e rest ih =>
    by_cases h : e.1 = p
    · simp [setA, h, lookupA]
    · simp [setA, h, lookupA, ih]

theorem lookupA_setA_ne (l : List (FsPath × List Nat)) (p q : FsPath) (v : List Nat)
    (h : q ≠ p) : lookupA (setA l p v) q = lookupA l q := by
  induction l with
  | nil => simp [setA, lookupA, Ne.symm h]
  | cons e rest ih =>
    by_cases he : e.1 = p
    · simp [setA, he, lookupA, Ne.symm h]
    · by_cases hq : e.1 = q
      · simp [setA, he, lookupA, hq, h]
      · simp [setA, he, lookupA, hq, ih]

theorem setA_of_lookupA_none (l : List (FsPath × List Nat)) (p : FsPath) (v : List Nat)
    (h : lookupA l p = none) : setA l p v = l ++ [(p, v)] := by
  induction l with
  | nil => rfl
  | cons e rest ih =>
    by_cases he : e.1 = p
    · simp [lookupA, he] at h
    · simp only [lookupA, he, if_false] at h
      simp [setA, he, ih h]

theorem lookupA_removeA_self (l : List (FsPath × List Nat)) (p : FsPath) :
    lookupA (removeA l p) p = none := by
  induction l with
  | nil => rfl
  | cons e rest ih =>
    by_cases he : e.1 = p
    · simp [removeA, he, ih]
    · simp [removeA, he, lookupA, ih]

theorem lookupA_append (l₁ l₂ : List (FsPath × List Nat)) (p : FsPath) :
    lookupA (l₁ ++ l₂) p =
      match lookupA l₁ p with
      | some v => some v
      | none => lookupA l₂ p := by
  induction l₁ with
  | nil => simp [lookupA]
  | cons e rest ih =>
    by_cases he : e.1 = p
    · simp [lookupA, he]
    · simp [lookupA, he, ih]

/-! ## Rust line splitting -/

theorem splitNlAux_append_no_nl (xs : List Char) (hx : '\n' ∉ xs) :
    ∀ (ys acc : List Char), splitNlAux (xs ++ ys) acc = splitNlAux ys (xs.reverse ++ acc) := by
  induction xs with
  | nil => intro ys acc; simp
  | cons x xs ih =>
    intro ys acc
    have hxn : x ≠ '\n' := fun hh => hx (by simp [hh])
    have hxs : '\n' ∉ xs := fun hh => hx (by simp [hh])
    rw [show splitNlAux ((x :: xs) ++ ys) acc = splitNlAux (xs ++ ys) (x :: acc) from by
      simp [splitNlAux, hxn]]
    rw [ih hxs ys (x :: acc)]
    simp [List.append_assoc]

theorem splitNlAux_no_nl (xs : List Char) (hx : '\n' ∉ xs) (acc : List Char) :
    splitNlAux xs acc = [acc.reverse ++ xs] := by
  have h := splitNlAux_append_no_nl xs hx [] acc
  simpa [splitNlAux] using h

/-- The character sequence of an index holding the newline-terminated lines
`L`. -/
def linesData (L : List String) : List Char := (L.map fun l => l.data ++ ['\n']).flatten

theorem goodLine_no_nl {l : String} (h : goodLine l) : '\n' ∉ l.data :=
  fun hm => absurd rfl ((h '\n' hm).2.1)

theorem goodLine_no_cr {l : String} (h : goodLine l) : '\r' ∉ l.data :=
  fun hm => absurd rfl ((h '\r' hm).2.2)

theorem splitNlAux_linesData (L : List String) (hL : ∀ l ∈ L, goodLine l) :
    splitNlAux (linesData L) [] = L.map String.data ++ [[]] := by
  induction L with
  | nil => rfl
  | cons l rest ih =>
    have hl := hL l (List.mem_cons_self l rest)
    have hrest : ∀ x ∈ rest, goodLine x := fun x hx => hL x (List.mem_cons_of_mem l hx)
    show splitNlAux ((l.data ++ ['\n']) ++ linesData rest) [] = _
    rw [List.append_assoc]
    rw [splitNlAux_append_no_nl l.data (goodLine_no_nl hl)]
    show splitNlAux ('\n' :: linesData rest) (l.data.reverse ++ []) = _
    simp only [splitNlAux, if_pos rfl]
    rw [ih hrest]
    simp

theorem rustLines_linesData (L : List String) (hL : ∀ l ∈ L, goodLine l) :
    rustLines ⟨linesData L⟩ = L := by
  simp only [rustLines]
  rw [splitNlAux_linesData L hL]
  have hcond : (List.map String.data L ++ [[]]).getLast? = some ([] : List Char) :=
    List.getLast?_concat _
  rw [if_pos hcond, List.dropLast_concat, List.map_map]
  refine (List.map_congr_left ?_).trans (List.map_id L)
  intro l hl
  have hcr := goodLine_no_cr (hL l hl)
  have hstrip : stripCr l.data = l.data := by
    unfold stripCr
    split
    · next hlast =>
      obtain ⟨hne, heq⟩ := List.mem_getLast?_eq_getLast (l := l.data) (x := '\r')
        (by rw [hlast]; rfl)
      exact absurd (heq ▸ List.getLast_mem hne) hcr
    · rfl
  simp [Function.comp, hstrip]

theorem map_ofNat_linesBytes (L : List String) :
    (linesBytes L).map Char.ofNat = linesData L := by
  induction L with
  | nil => rfl
  | cons l rest ih =>
    show ((strToBytes l ++ [10]) ++ linesBytes rest).map Char.ofNat = _
    rw [List.map_append, ih]
    show (strToBytes l ++ [10]).map Char.ofNat ++ _ = (l.data ++ ['\n']) ++ _
    congr 1
    rw [List.map_append]
    congr 1
    rw [strToBytes, List.map_map]
    refine (List.map_congr_left ?_).trans (List.map_id l.data)
    intro c _
    exact Char.ofNat_toNat c

theorem asciiDecode_linesBytes (L : List String) (hL : ∀ l ∈ L, goodLine l) :
    asciiDecode (linesBytes L) = some ⟨linesData L⟩ := by
  have hall : (linesBytes L).all (fun b => b < 128) = true := by
    rw [List.all_eq_true]
    intro b hb
    simp only [linesBytes, List.mem_flatten, List.mem_map] at hb
    obtain ⟨bs, ⟨l, hlL, rfl⟩, hbbs⟩ := hb
    simp only [List.mem_append, List.mem_cons, List.not_mem_nil, or_false] at hbbs
    rcases hbbs with hbl | rfl
    · simp only [strToBytes, List.mem_map] at hbl
      obtain ⟨c, hcl, rfl⟩ := hbl
      exact decide_eq_true ((hL l hlL c hcl).1)
    · exact decide_eq_true (by norm_num)
  unfold asciiDecode
  rw [hall, if_pos rfl, map_ofNat_linesBytes]


/-! ## Path and filename facts -/

theorem pathParent_some {p d : FsPath} (h : pathParent p = some d) :
    p ≠ [] ∧ d = p.dropLast := by
  unfold pathParent at h
  split at h
  · exact absurd h (by simp)
  · next hne => exact ⟨hne, (Option.some.inj h).symm⟩

theorem pathParent_length {p d : FsPath} (h : pathParent p = some d) :
    p.length = d.length + 1 := by
  obtain ⟨hne, rfl⟩ := pathParent_some h
  rw [List.length_dropLast]
  have : p.length ≠ 0 := fun hz => hne (List.eq_nil_of_length_eq_zero hz)
  omega

/-- The original file is never one of the two sidecar paths the call writes:
its path is one component shorter. -/
theorem p_ne_sidecar_child {p d : FsPath} (h : pathParent p = some d) (a b : String) :
    p ≠ d ++ [a, b] := by
  intro he
  have hl := pathParent_length h
  rw [he] at hl
  simp [List.length_append] at hl

theorem sidecar_child_inj {d : FsPath} {a b c e : String}
    (h : d ++ [a, b] = d ++ [c, e]) : a = c ∧ b = e := by
  have h2 := List.append_cancel_left h
  simp at h2
  exact h2

theorem sidecar_child_inj_gen {d1 d2 : FsPath} {a b c e : String}
    (h : d1 ++ [a, b] = d2 ++ [c, e]) : d1 = d2 ∧ a = c ∧ b = e := by
  have hlen : d1.length = d2.length := by
    have := congrArg List.length h
    simp [List.length_append] at this
    omega
  obtain ⟨hd, htl⟩ := List.append_inj h hlen
  simp at htl
  exact ⟨hd, htl⟩

theorem backup_filename_data_length (src h : String) (hh : 8 ≤ h.data.length) :
    10 ≤ (backup_filename src h).data.length := by
  simp only [backup_filename]
  split
  · simp only [String.data_append, List.length_append, List.length_take, List.length_cons,
      List.length_nil]
    omega
  · simp only [String.data_append, List.length_append, List.length_take, List.length_cons,
      List.length_nil]
    omega

theorem backup_filename_ne_index (src h : String) (hh : 8 ≤ h.data.length) :
    backup_filename src h ≠ indexFileName := by
  intro he
  have h1 := backup_filename_data_length src h hh
  rw [he] at h1
  have : (indexFileName : String).data.length = 9 := by decide
  omega

theorem hash_data_length (content : List Nat) :
    (calculate_file_hash content).data.length = 64 :=
  calculate_file_hash_length content



/-! ## Characterizations of create_backup runs -/

/-- A run that hits the deduplication check: the call succeeds and only the
idempotent directory creation has happened. -/
theorem create_backup_dedup_run (fs : FS) (p d : FsPath) (content ibytes : List Nat)
    (itext : String)
    (hpar : pathParent p = some d)
    (hbd : sidecarOf d ∉ fs.denied)
    (hread : fs.readFile p = some content)
    (hidx : lookupA fs.files (indexPathOf d) = some ibytes)
    (hipd : indexPathOf d ∉ fs.denied)
    (hdec : asciiDecode ibytes = some itext)
    (hmem : calculate_file_hash content ∈ rustLines itext) :
    create_backup fs p =
      (.ok (), { fs with dirs := if d ++ [safetyNetName] ∈ fs.dirs then fs.dirs
                                 else (d ++ [safetyNetName]) :: fs.dirs }) := by
  have hip : (d ++ [safetyNetName]) ++ [indexFileName] = indexPathOf d := by
    simp [indexPathOf]
  have hbd' : d ++ [safetyNetName] ∉ fs.denied := by simpa [sidecarOf] using hbd
  have hcd : fs.create_dir_all (d ++ [safetyNetName]) =
      .ok { fs with dirs := if d ++ [safetyNetName] ∈ fs.dirs then fs.dirs
                            else (d ++ [safetyNetName]) :: fs.dirs } := by
    unfold FS.create_dir_all
    rw [if_neg hbd']
  generalize hgen : ({ fs with dirs := if d ++ [safetyNetName] ∈ fs.dirs then fs.dirs
                                       else (d ++ [safetyNetName]) :: fs.dirs } : FS) = fs1 at hcd ⊢
  have hfiles : fs1.files = fs.files := by rw [← hgen]
  have hden : fs1.denied = fs.denied := by rw [← hgen]
  have hread1 : fs1.readFile p = some content := by
    unfold FS.readFile at hread ⊢
    rw [hfiles, hden]
    exact hread
  have hexists : fs1.pathExists ((d ++ [safetyNetName]) ++ [indexFileName]) = true := by
    unfold FS.pathExists
    rw [hip, hfiles, hidx]
    simp
  have hread2 : fs1.readFile ((d ++ [safetyNetName]) ++ [indexFileName]) = some ibytes := by
    unfold FS.readFile
    rw [hip, hfiles, hden, if_neg hipd]
    exact hidx
  have hany : (rustLines itext).any (fun line => decide (line = calculate_file_hash content))
      = true := by
    rw [List.any_eq_true]
    exact ⟨calculate_file_hash content, hmem, by simp⟩
  unfold create_backup
  simp only [hpar, hcd, hread1, hexists, hread2, hdec, hany, if_true]

/-- A run that misses the deduplication check on a directory with no index
yet: the call copies the file to its derived backup path and writes a
one-line index. -/
theorem create_backup_copy_run (fs : FS) (p d : FsPath) (content : List Nat)
    (hpar : pathParent p = some d)
    (hbd : sidecarOf d ∉ fs.denied)
    (hread : fs.readFile p = some content)
    (hmiss : lookupA fs.files (indexPathOf d) = none)
    (hdirs : indexPathOf d ∉ fs.dirs)
    (hbp : sidecarOf d ++ [backup_filename ((pathFileName p).getD "file")
             (calculate_file_hash content)] ∉ fs.denied)
    (hipd : indexPathOf d ∉ fs.denied) :
    create_backup fs p =
      (.ok (), { fs with
        files := setA (setA fs.files
                   (sidecarOf d ++ [backup_filename ((pathFileName p).getD "file")
                      (calculate_file_hash content)]) content)
                 (indexPathOf d)
                 (strToBytes (calculate_file_hash content) ++ [10]),
        dirs := if d ++ [safetyNetName] ∈ fs.dirs then fs.dirs
                else (d ++ [safetyNetName]) :: fs.dirs }) := by
  simp only [sidecarOf, indexPathOf, List.append_assoc, List.cons_append,
    List.nil_append] at hbd hmiss hdirs hbp hipd ⊢
  have hipbd : d ++ [safetyNetName, indexFileName] ≠ d ++ [safetyNetName] := by
    intro he
    have := congrArg List.length he
    simp [List.length_append] at this
  have hnebp : d ++ [safetyNetName, indexFileName] ≠
      d ++ [safetyNetName, backup_filename ((pathFileName p).getD "file")
        (calculate_file_hash content)] := by
    intro he
    have h2 := List.append_cancel_left he
    simp at h2
    exact backup_filename_ne_index _ _ (by rw [hash_data_length]; omega) h2.symm
  have hcd : fs.create_dir_all (d ++ [safetyNetName]) =
      .ok { fs with dirs := if d ++ [safetyNetName] ∈ fs.dirs then fs.dirs
                            else (d ++ [safetyNetName]) :: fs.dirs } := by
    unfold FS.create_dir_all
    rw [if_neg hbd]
  generalize hgen : ({ fs with dirs := if d ++ [safetyNetName] ∈ fs.dirs then fs.dirs
                                       else (d ++ [safetyNetName]) :: fs.dirs } : FS) = fs1 at hcd ⊢
  have hfiles : fs1.files = fs.files := by rw [← hgen]
  have hden : fs1.denied = fs.denied := by rw [← hgen]
  have hdirs1 : fs1.dirs = if d ++ [safetyNetName] ∈ fs.dirs then fs.dirs
      else (d ++ [safetyNetName]) :: fs.dirs := by rw [← hgen]
  have hread1 : fs1.readFile p = some content := by
    unfold FS.readFile at hread ⊢
    rw [hfiles, hden]
    exact hread
  have hexists : fs1.pathExists (d ++ [safetyNetName, indexFileName]) = false := by
    unfold FS.pathExists
    rw [hfiles, hmiss, hdirs1]
    simp only [Option.isSome_none, Bool.false_or]
    rw [decide_eq_false]
    intro hin
    split at hin
    · exact hdirs hin
    · rcases List.mem_cons.mp hin with he | hin2
      · exact hipbd he
      · exact hdirs hin2
  have hbp1 : d ++ [safetyNetName, backup_filename ((pathFileName p).getD "file")
      (calculate_file_hash content)] ∉ fs1.denied := by rw [hden]; exact hbp
  have hipd1 : d ++ [safetyNetName, indexFileName] ∉ fs1.denied := by rw [hden]; exact hipd
  unfold create_backup
  simp only [hpar, hcd, hread1, List.append_assoc, List.cons_append, List.nil_append,
    hexists, Bool.false_eq_true, if_false, copyAndIndex, FS.writeFile]
  rw [if_neg hbp1, if_neg hipd1]
  rw [hfiles, lookupA_setA_ne _ _ _ _ hnebp, hmiss]
  rw [← hgen]
  simp

theorem lookupA_mem_map_fst (l : List (FsPath × List Nat)) (p : FsPath) (v : List Nat)
    (h : lookupA l p = some v) : p ∈ l.map Prod.fst := by
  induction l with
  | nil => simp [lookupA] at h
  | cons e rest ih =>
    by_cases he : e.1 = p
    · simp [he]
    · simp only [lookupA, he, if_false] at h
      simp [ih h]

theorem indexLinesOf_eq (fs : FS) (d : FsPath) (L : List String)
    (h : lookupA fs.files (indexPathOf d) = some (linesBytes L))
    (hL : ∀ l ∈ L, goodLine l) : indexLinesOf fs d = L := by
  simp only [indexLinesOf, h, asciiDecode_linesBytes L hL, rustLines_linesData L hL]

/-! ## C2: deduplication hit -/

/-- C2: for every file whose content hash already appears as an exact line of
the sidecar's index.txt, `create_backup` returns success immediately, creating
no new backup file and appending nothing to the index (the file map is left
unchanged; only the idempotent directory creation may have run). -/
theorem dedup_hit_no_copy (fs : FS) (p d : FsPath) (content ibytes : List Nat)
    (itext : String)
    (hpar : pathParent p = some d)
    (hbd : sidecarOf d ∉ fs.denied)
    (hread : fs.readFile p = some content)
    (hidx : lookupA fs.files (indexPathOf d) = some ibytes)
    (hipd : indexPathOf d ∉ fs.denied)
    (hdec : asciiDecode ibytes = some itext)
    (hmem : calculate_file_hash content ∈ rustLines itext) :
    (create_backup fs p).1 = .ok () ∧ ((create_backup fs p).2).files = fs.files := by
  rw [create_backup_dedup_run fs p d content ibytes itext hpar hbd hread hidx hipd hdec hmem]
  exact ⟨rfl, rfl⟩

/-- Witness for C2: a concrete second backup of an unchanged `photo.jpg`. -/
theorem dedup_hit_no_copy_witness :
    (create_backup fsDedup ["photo.jpg"]).1 = .ok () ∧
      ((create_backup fsDedup ["photo.jpg"]).2).files = fsDedup.files :=
  dedup_hit_no_copy fsDedup ["photo.jpg"] [] (strToBytes "hello")
    (strToBytes (helloHash ++ "\n")) (helloHash ++ "\n")
    (by decide) (by decide) (by decide) (by decide) (by decide) (by decide) (by decide)



/-! ## C1: idempotence -/

theorem sidecar_child_ne_index (d : FsPath) (n : String) (hn : n ≠ indexFileName) :
    sidecarOf d ++ [n] ≠ indexPathOf d := by
  rw [show indexPathOf d = sidecarOf d ++ [indexFileName] from by simp [indexPathOf, sidecarOf]]
  intro he
  have h2 := List.append_cancel_left he
  simp at h2
  exact hn h2

theorem backup_pred_true (d : FsPath) (n : String) (hn : n ≠ indexFileName) :
    (decide ((sidecarOf d ++ [n]).dropLast = sidecarOf d) &&
     !((sidecarOf d ++ [n]) == indexPathOf d)) = true := by
  simp [List.dropLast_concat, sidecar_child_ne_index d n hn]

/-- C1: calling `create_backup` twice in sequence on the same unchanged file,
starting from a directory with no sidecar index and no backup files, results
in exactly one backup file and exactly one index line for that file's hash;
the second call finds the hash in the index and returns success without
changing the filesystem at all. -/
theorem ensure_backup_idempotent (fs : FS) (p d : FsPath) (content : List Nat)
    (hpar : pathParent p = some d)
    (hread : fs.readFile p = some content)
    (hden : fs.denied = [])
    (hmiss : lookupA fs.files (indexPathOf d) = none)
    (hdirs : indexPathOf d ∉ fs.dirs)
    (hnob : backupFilesIn fs d = []) :
    (create_backup fs p).1 = .ok () ∧
    indexLinesOf (create_backup fs p).2 d = [calculate_file_hash content] ∧
    backupFilesIn (create_backup fs p).2 d =
      [sidecarOf d ++ [backup_filename ((pathFileName p).getD "file")
         (calculate_file_hash content)]] ∧
    create_backup (create_backup fs p).2 p = (.ok (), (create_backup fs p).2) := by
  have hbd : sidecarOf d ∉ fs.denied := by rw [hden]; simp
  have hbp : sidecarOf d ++ [backup_filename ((pathFileName p).getD "file")
      (calculate_file_hash content)] ∉ fs.denied := by rw [hden]; simp
  have hipd : indexPathOf d ∉ fs.denied := by rw [hden]; simp
  have hrun := create_backup_copy_run fs p d content hpar hbd hread hmiss hdirs hbp hipd
  set bn : String := backup_filename ((pathFileName p).getD "file")
      (calculate_file_hash content) with hbndef
  set fh : String := calculate_file_hash content with hfhdef
  have hbnne : bn ≠ indexFileName := by
    rw [hbndef]
    exact backup_filename_ne_index _ _ (by rw [hash_data_length]; omega)
  have hbpne : sidecarOf d ++ [bn] ≠ indexPathOf d := sidecar_child_ne_index d bn hbnne
  have hipne : indexPathOf d ≠ sidecarOf d ++ [bn] := Ne.symm hbpne
  have hbpnone : lookupA fs.files (sidecarOf d ++ [bn]) = none := by
    cases hcl : lookupA fs.files (sidecarOf d ++ [bn]) with
    | none => rfl
    | some v =>
      exfalso
      have hm := lookupA_mem_map_fst fs.files _ v hcl
      have hpass : sidecarOf d ++ [bn] ∈ backupFilesIn fs d := by
        unfold backupFilesIn
        rw [List.mem_filter]
        exact ⟨hm, backup_pred_true d bn hbnne⟩
      rw [hnob] at hpass
      exact List.not_mem_nil _ hpass
  have hfiles' : (create_backup fs p).2.files =
      fs.files ++ [(sidecarOf d ++ [bn], content)] ++
        [(indexPathOf d, strToBytes fh ++ [10])] := by
    rw [hrun]
    show setA (setA fs.files (sidecarOf d ++ [bn]) content) (indexPathOf d)
        (strToBytes fh ++ [10]) = _
    rw [setA_of_lookupA_none _ _ _ hbpnone]
    rw [setA_of_lookupA_none]
    rw [lookupA_append]
    rw [hmiss]
    show lookupA [(sidecarOf d ++ [bn], content)] (indexPathOf d) = none
    simp [lookupA, hbpne]
  have hidx' : lookupA (create_backup fs p).2.files (indexPathOf d) =
      some (linesBytes [fh]) := by
    rw [hfiles', List.append_assoc, lookupA_append]
    rw [hmiss]
    show lookupA ([(sidecarOf d ++ [bn], content)] ++
      [(indexPathOf d, strToBytes fh ++ [10])]) _ = _
    rw [lookupA_append]
    rw [show lookupA [(sidecarOf d ++ [bn], content)] (indexPathOf d) = none from by
      simp [lookupA, hbpne]]
    simp [lookupA, linesBytes]
  have hgood : ∀ l ∈ [fh], goodLine l := by
    intro l hl
    rw [List.mem_singleton] at hl
    rw [hl, hfhdef]
    exact goodLine_hash content
  refine ⟨by rw [hrun], ?_, ?_, ?_⟩
  · exact indexLinesOf_eq _ d [fh] hidx' hgood
  · unfold backupFilesIn
    rw [hfiles']
    simp only [List.map_append, List.map_cons, List.map_nil, List.filter_append]
    rw [show List.filter _ (fs.files.map Prod.fst) = backupFilesIn fs d from rfl, hnob]
    simp only [List.nil_append]
    have hpredip : (decide ((indexPathOf d).dropLast = sidecarOf d) &&
        !(indexPathOf d == indexPathOf d)) = false := by
      simp
    have hne2 : (!(sidecarOf d ++ [bn] == indexPathOf d)) = true := by
      simp [hbpne]
    simp [List.filter, backup_pred_true d bn hbnne, hpredip, hne2]
  · have hread2 : (create_backup fs p).2.readFile p = some content := by
      unfold FS.readFile
      rw [show (create_backup fs p).2.denied = fs.denied from by rw [hrun]]
      rw [hden]
      rw [hfiles', List.append_assoc, lookupA_append]
      unfold FS.readFile at hread
      rw [hden] at hread
      simp only [List.not_mem_nil, if_false] at hread
      rw [hread]
      simp
    have hbd2 : sidecarOf d ∉ (create_backup fs p).2.denied := by
      rw [show (create_backup fs p).2.denied = fs.denied from by rw [hrun], hden]
      simp
    have hipd2 : indexPathOf d ∉ (create_backup fs p).2.denied := by
      rw [show (create_backup fs p).2.denied = fs.denied from by rw [hrun], hden]
      simp
    have hdec2 : asciiDecode (linesBytes [fh]) = some ⟨linesData [fh]⟩ :=
      asciiDecode_linesBytes [fh] hgood
    have hmem2 : calculate_file_hash content ∈ rustLines ⟨linesData [fh]⟩ := by
      rw [rustLines_linesData [fh] hgood]
      simp [hfhdef]
    have hrun2 := create_backup_dedup_run (create_backup fs p).2 p d content
      (linesBytes [fh]) ⟨linesData [fh]⟩ hpar hbd2 hread2 hidx' hipd2 hdec2 hmem2
    rw [hrun2]
    have hmemdirs : d ++ [safetyNetName] ∈ (create_backup fs p).2.dirs := by
      rw [show (create_backup fs p).2.dirs = if d ++ [safetyNetName] ∈ fs.dirs then fs.dirs
            else (d ++ [safetyNetName]) :: fs.dirs from by rw [hrun]]
      split
      · assumption
      · exact List.mem_cons_self _ _
    rw [if_pos hmemdirs]

/-- Witness for C1: two successive backups of a fresh `photo.jpg`. -/
theorem ensure_backup_idempotent_witness :
    (create_backup fsFresh ["photo.jpg"]).1 = .ok () ∧
    indexLinesOf (create_backup fsFresh ["photo.jpg"]).2 [] =
      [calculate_file_hash (strToBytes "hello")] ∧
    backupFilesIn (create_backup fsFresh ["photo.jpg"]).2 [] =
      [sidecarOf [] ++ [backup_filename ((pathFileName ["photo.jpg"]).getD "file")
         (calculate_file_hash (strToBytes "hello"))]] ∧
    create_backup (create_backup fsFresh ["photo.jpg"]).2 ["photo.jpg"] =
      (.ok (), (create_backup fsFresh ["photo.jpg"]).2) :=
  ensure_backup_idempotent fsFresh ["photo.jpg"] [] (strToBytes "hello")
    (by decide) (by decide) (by decide) (by decide) (by decide) (by decide)


/-! ## C6: no parent directory -/

/-- C6: `create_backup` on a path with no parent directory returns the
no-parent error and performs no filesystem writes — the returned state is the
input state, unchanged. -/
theorem no_parent_no_writes (fs : FS) (p : FsPath) (hpar : pathParent p = none) :
    create_backup fs p = (.error .noParentDir, fs) := by
  unfold create_backup
  simp only [hpar]

/-- Witness for C6: the root (empty) path. -/
theorem no_parent_no_writes_witness :
    pathParent ([] : FsPath) = none ∧
      create_backup fsFresh [] = (.error .noParentDir, fsFresh) :=
  ⟨by decide, no_parent_no_writes fsFresh [] (by decide)⟩

/-! ## C5: backup failure is non-fatal to delete -/

theorem p_ne_sidecar_child2 {p d : FsPath} (h : pathParent p = some d) (a b : String) :
    p ≠ (d ++ [a]) ++ [b] := by
  intro he
  have hl := pathParent_length h
  rw [he] at hl
  simp [List.length_append] at hl

/-- Whatever the outcome, `create_backup` leaves the denied set unchanged and
never touches the entry of the original file. -/
theorem create_backup_frame (fs : FS) (p : FsPath) :
    (create_backup fs p).2.denied = fs.denied ∧
    lookupA (create_backup fs p).2.files p = lookupA fs.files p := by
  unfold create_backup
  cases hpar : pathParent p with
  | none => exact ⟨rfl, rfl⟩
  | some d =>
    have hne : ∀ a b, p ≠ (d ++ [a]) ++ [b] := fun a b => p_ne_sidecar_child2 hpar a b
    by_cases hbd : (d ++ [safetyNetName]) ∈ fs.denied
    · simp [FS.create_dir_all, if_pos hbd]
    · simp only [FS.create_dir_all, if_neg hbd]
      unfold copyAndIndex
      dsimp only
      repeat' split
      all_goals refine ⟨by first | rfl | trivial, ?_⟩
      all_goals
        first
          | rfl
          | trivial
          | (show lookupA (setA (setA fs.files _ _) _ _) p = _
             rw [lookupA_setA_ne _ _ _ _ (hne _ _), lookupA_setA_ne _ _ _ _ (hne _ _)])
          | (show lookupA (setA fs.files _ _) p = _
             rw [lookupA_setA_ne _ _ _ _ (hne _ _)])

/-- C5: backup failure is non-fatal to the caller: whenever `create_backup`
returns an error, the delete handler still removes the original file and
returns HTTP 200 to the client. -/
theorem delete_proceeds_on_backup_error (fs : FS) (p : FsPath) (e : IoErr)
    (hIs : fs.isFile p = true)
    (hden : p ∉ fs.denied)
    (hErr : (create_backup fs p).1 = .error e) :
    (delete_file_handler fs p).1 = .ok .ok200 ∧
    lookupA (delete_file_handler fs p).2.files p = none := by
  unfold delete_file_handler
  rw [if_neg (show ¬¬(fs.isFile p = true) from by simp [hIs])]
  obtain ⟨hd, hl⟩ := create_backup_frame fs p
  have hrm : ((create_backup fs p).2).remove_file p =
      .ok { (create_backup fs p).2 with
              files := removeA ((create_backup fs p).2).files p } := by
    unfold FS.remove_file
    rw [if_neg (show p ∉ ((create_backup fs p).2).denied from by rw [hd]; exact hden)]
    rw [hl]
    unfold FS.isFile at hIs
    rw [if_pos hIs]
  simp only [hrm]
  exact ⟨trivial, lookupA_removeA_self _ _⟩

/-- Witness for C5: deleting `a.txt` while sidecar creation is denied — the
backup errors, the delete still succeeds. -/
theorem delete_proceeds_on_backup_error_witness :
    (delete_file_handler fsDeniedDir ["a.txt"]).1 = .ok .ok200 ∧
    lookupA (delete_file_handler fsDeniedDir ["a.txt"]).2.files ["a.txt"] = none :=
  delete_proceeds_on_backup_error fsDeniedDir ["a.txt"]
    (.permissionDenied [".safety_net"]) (by decide) (by decide) (by decide)



/-! ## C9: hidden entries never listed -/

theorem collectEntries_no_dot (raw : List (String × Bool)) :
    ∀ e ∈ collectEntries raw, startsWithDot e.name = false := by
  induction raw with
  | nil => intro e he; simp [collectEntries] at he
  | cons x rest ih =>
    intro e he
    obtain ⟨name, d⟩ := x
    by_cases hdot : startsWithDot name = true
    · rw [show collectEntries ((name, d) :: rest) = collectEntries rest from by
        simp [collectEntries, hdot]] at he
      exact ih e he
    · rw [show collectEntries ((name, d) :: rest) =
          (if d || (!d && is_image_file name) then
            (⟨name, d, !d && is_image_file name⟩ : DirectoryEntry) :: collectEntries rest
          else collectEntries rest) from by
        simp [collectEntries, hdot]] at he
      split at he
      · rcases List.mem_cons.mp he with rfl | hm
        · simpa using hdot
        · exact ih e hm
      · exact ih e he

/-- C9: the directory-listing computation excludes every entry whose name
begins with a dot, so the `.safety_net` sidecar directory never appears in
any listing result. -/
theorem listing_excludes_dot_entries (raw : List (String × Bool)) (e : DirectoryEntry)
    (he : e ∈ list_directory_entries raw) :
    startsWithDot e.name = false ∧ e.name ≠ safetyNetName := by
  have hm : e ∈ collectEntries raw := List.mem_mergeSort.mp he
  have h1 := collectEntries_no_dot raw e hm
  refine ⟨h1, ?_⟩
  intro hn
  rw [hn] at h1
  exact absurd h1 (by decide)

/-- Witness for C9: a listing containing a visible image and the sidecar. -/
theorem listing_excludes_dot_entries_witness :
    startsWithDot (⟨"photo.jpg", false, true⟩ : DirectoryEntry).name = false ∧
    (⟨"photo.jpg", false, true⟩ : DirectoryEntry).name ≠ safetyNetName :=
  listing_excludes_dot_entries [("photo.jpg", false), (".safety_net", true)]
    ⟨"photo.jpg", false, true⟩
    (List.mem_mergeSort.mpr (by decide))



/-! ## Destructing a successful run -/

/-- Characterization of any successful `create_backup` run: either it was a
deduplication hit and only the directory may have been created, or the hash
was not indexed and the run wrote the backup copy and appended to the
index. -/
theorem create_backup_ok_spec (fs : FS) (p : FsPath) (fs' : FS)
    (h : create_backup fs p = (.ok (), fs')) :
    ∃ d content,
      pathParent p = some d ∧
      (d ++ [safetyNetName]) ∉ fs.denied ∧
      lookupA fs.files p = some content ∧
      p ∉ fs.denied ∧
      ((fs' = { fs with dirs := if (d ++ [safetyNetName]) ∈ fs.dirs then fs.dirs
                                else (d ++ [safetyNetName]) :: fs.dirs } ∧
        calculate_file_hash content ∈ indexLinesOf fs d) ∨
       (calculate_file_hash content ∉ indexLinesOf fs d ∧
        fs' = { fs with
          files := setA (setA fs.files
                     ((d ++ [safetyNetName]) ++ [backup_filename ((pathFileName p).getD "file")
                        (calculate_file_hash content)]) content)
                   (d ++ [safetyNetName, indexFileName])
                   (((lookupA fs.files (d ++ [safetyNetName, indexFileName])).getD []) ++
                     strToBytes (calculate_file_hash content) ++ [10]),
          dirs := if (d ++ [safetyNetName]) ∈ fs.dirs then fs.dirs
                  else (d ++ [safetyNetName]) :: fs.dirs })) := by
  unfold create_backup at h
  split at h
  · exact absurd h (by simp)
  rename_i d hpar
  refine ⟨d, ?_⟩
  unfold FS.create_dir_all at h
  try dsimp only at h
  split at h
  · exact absurd h (by simp)
  rename_i fs1 hcd
  split at hcd
  · exact absurd hcd (by simp)
  rename_i hbd
  have hfs1 := Except.ok.inj hcd
  generalize hgen : ({ fs with dirs := if (d ++ [safetyNetName]) ∈ fs.dirs then fs.dirs
                                       else (d ++ [safetyNetName]) :: fs.dirs } : FS) = fsX
    at hfs1 ⊢
  subst hfs1
  have hfiles : fsX.files = fs.files := by rw [← hgen]
  have hden : fsX.denied = fs.denied := by rw [← hgen]
  have hipeq : (d ++ [safetyNetName]) ++ [indexFileName] = d ++ [safetyNetName, indexFileName] := by
    simp
  rw [hipeq] at h
  split at h
  · exact absurd h (by simp)
  rename_i content heqp
  unfold FS.readFile at heqp
  rw [hfiles, hden] at heqp
  split at heqp
  · exact absurd heqp (by simp)
  rename_i hpden
  have hbne : d ++ [safetyNetName, indexFileName] ≠
      (d ++ [safetyNetName]) ++ [backup_filename ((pathFileName p).getD "file")
        (calculate_file_hash content)] := by
    rw [hipeq.symm]
    intro he
    have h2 := List.append_cancel_left he
    simp at h2
    exact backup_filename_ne_index _ _ (by rw [hash_data_length]; omega) h2.symm
  refine ⟨content, hpar, hbd, heqp, hpden, ?_⟩
  split at h
  · -- index path exists
    rename_i hex
    split at h
    · exact absurd h (by simp)
    rename_i ibytes heqi
    unfold FS.readFile at heqi
    rw [hfiles, hden] at heqi
    split at heqi
    · exact absurd heqi (by simp)
    rename_i hiden
    have hlines : indexLinesOf fs d = (match asciiDecode ibytes with
        | none => ([] : List String) | some s => rustLines s) := by
      unfold indexLinesOf indexPathOf
      rw [heqi]
    split at h
    · exact absurd h (by simp)
    rename_i itext hdec
    rw [hdec] at hlines
    split at h
    · -- dedup hit
      rename_i hany
      rw [Prod.mk.injEq] at h
      refine Or.inl ⟨by rw [← h.2, ← hgen], ?_⟩
      rw [hlines]
      rw [List.any_eq_true] at hany
      obtain ⟨x, hx, hxe⟩ := hany
      rw [decide_eq_true_eq] at hxe
      rwa [hxe] at hx
    · -- copy
      rename_i hany
      have hnm : calculate_file_hash content ∉ indexLinesOf fs d := by
        rw [hlines]
        intro hm
        exact hany (List.any_eq_true.mpr ⟨_, hm, by simp⟩)
      unfold copyAndIndex at h
      try dsimp only at h
      rw [hden] at h
      split at h
      · exact absurd h (by simp)
      try dsimp only at h
      try rw [hden] at h
      split at h
      · exact absurd h (by simp)
      rw [Prod.mk.injEq] at h
      refine Or.inr ⟨hnm, ?_⟩
      rw [← h.2]
      unfold FS.writeFile
      rw [hfiles, lookupA_setA_ne _ _ _ _ hbne, ← hgen]
  · -- index path does not exist
    rename_i hex
    have hnone : lookupA fs.files (d ++ [safetyNetName, indexFileName]) = none := by
      rcases hl : lookupA fs.files (d ++ [safetyNetName, indexFileName]) with _ | v
      · rfl
      · exfalso
        apply hex
        show FS.pathExists _ _ = true
        unfold FS.pathExists
        rw [hfiles, hl]
        simp
    have hnm : calculate_file_hash content ∉ indexLinesOf fs d := by
      unfold indexLinesOf indexPathOf
      rw [hnone]
      simp
    unfold copyAndIndex at h
    try dsimp only at h
    rw [hden] at h
    split at h
    · exact absurd h (by simp)
    try dsimp only at h
    try rw [hden] at h
    split at h
    · exact absurd h (by simp)
    rw [Prod.mk.injEq] at h
    refine Or.inr ⟨hnm, ?_⟩
    rw [← h.2]
    unfold FS.writeFile
    rw [hfiles, lookupA_setA_ne _ _ _ _ hbne, ← hgen]


/-- Case analysis of `copyAndIndex`, covering its error exits: the state is
unchanged, or only the backup copy was written (the index append failed), or
both writes happened. -/
theorem copyAndIndex_cases (fs : FS) (p : FsPath) (content : List Nat) (fh : String)
    (bd ip : FsPath) :
    (copyAndIndex fs p content fh bd ip).2 = fs ∨
    (copyAndIndex fs p content fh bd ip).2 =
      fs.writeFile (bd ++ [backup_filename ((pathFileName p).getD "file") fh]) content ∨
    (copyAndIndex fs p content fh bd ip).2 =
      (fs.writeFile (bd ++ [backup_filename ((pathFileName p).getD "file") fh])
        content).writeFile ip
        (((lookupA (setA fs.files (bd ++ [backup_filename ((pathFileName p).getD "file") fh])
             content) ip).getD []) ++ strToBytes fh ++ [10]) := by
  unfold copyAndIndex
  dsimp only
  split
  · exact Or.inl rfl
  · split
    · exact Or.inr (Or.inl rfl)
    · exact Or.inr (Or.inr rfl)

/-- Case analysis of every `create_backup` call, successful or failing: the
state is unchanged; or only the sidecar directory was (idempotently) created;
or additionally the one derived backup file was written (an interrupted run
whose index append failed); or additionally the one hash line was appended to
the index. These are the only possible outcomes. -/
theorem create_backup_cases (fs : FS) (p : FsPath) :
    (create_backup fs p).2 = fs ∨
    ∃ d, pathParent p = some d ∧
      ((create_backup fs p).2 = { fs with dirs := if (d ++ [safetyNetName]) ∈ fs.dirs
          then fs.dirs else (d ++ [safetyNetName]) :: fs.dirs } ∨
       ∃ content, lookupA fs.files p = some content ∧
         ((create_backup fs p).2 = { fs with
            files := setA fs.files ((d ++ [safetyNetName]) ++
              [backup_filename ((pathFileName p).getD "file") (calculate_file_hash content)])
              content,
            dirs := if (d ++ [safetyNetName]) ∈ fs.dirs then fs.dirs
                    else (d ++ [safetyNetName]) :: fs.dirs } ∨
          (create_backup fs p).2 = { fs with
            files := setA (setA fs.files ((d ++ [safetyNetName]) ++
                [backup_filename ((pathFileName p).getD "file") (calculate_file_hash content)])
                content)
              (d ++ [safetyNetName, indexFileName])
              (((lookupA fs.files (d ++ [safetyNetName, indexFileName])).getD []) ++
                strToBytes (calculate_file_hash content) ++ [10]),
            dirs := if (d ++ [safetyNetName]) ∈ fs.dirs then fs.dirs
                    else (d ++ [safetyNetName]) :: fs.dirs })) := by
  unfold create_backup
  cases hpar : pathParent p with
  | none => exact Or.inl rfl
  | some d =>
    by_cases hbd : (d ++ [safetyNetName]) ∈ fs.denied
    · refine Or.inl ?_
      simp [FS.create_dir_all, hbd]
    · simp only [FS.create_dir_all, if_neg hbd]
      refine Or.inr ⟨d, rfl, ?_⟩
      generalize hgen : ({ fs with dirs := if (d ++ [safetyNetName]) ∈ fs.dirs then fs.dirs
                                           else (d ++ [safetyNetName]) :: fs.dirs } : FS) = fsX
      have hfiles : fsX.files = fs.files := by rw [← hgen]
      have hden : fsX.denied = fs.denied := by rw [← hgen]
      rcases hrf : fsX.readFile p with _ | content
      · exact Or.inl rfl
      · have hlook : lookupA fs.files p = some content := by
          unfold FS.readFile at hrf
          rw [hfiles, hden] at hrf
          split at hrf
          · exact absurd hrf (by simp)
          · exact hrf
        have hipeq : (d ++ [safetyNetName]) ++ [indexFileName] =
            d ++ [safetyNetName, indexFileName] := by simp
        dsimp only
        rw [hipeq]
        set fh := calculate_file_hash content with hfh
        have hbne2 : d ++ [safetyNetName, indexFileName] ≠
            (d ++ [safetyNetName]) ++ [backup_filename ((pathFileName p).getD "file") fh] := by
          rw [show d ++ [safetyNetName, indexFileName] =
                (d ++ [safetyNetName]) ++ [indexFileName] from by simp]
          intro he
          have h2 := List.append_cancel_left he
          simp at h2
          exact backup_filename_ne_index _ _ (by rw [hfh, hash_data_length]; omega) h2.symm
        have hfinal : (copyAndIndex fsX p content fh (d ++ [safetyNetName])
              (d ++ [safetyNetName, indexFileName])).2 = fsX ∨
            ∃ c2, lookupA fs.files p = some c2 ∧
              ((copyAndIndex fsX p content fh (d ++ [safetyNetName])
                  (d ++ [safetyNetName, indexFileName])).2 = { fs with
                 files := setA fs.files ((d ++ [safetyNetName]) ++
                   [backup_filename ((pathFileName p).getD "file") (calculate_file_hash c2)]) c2,
                 dirs := if (d ++ [safetyNetName]) ∈ fs.dirs then fs.dirs
                         else (d ++ [safetyNetName]) :: fs.dirs } ∨
               (copyAndIndex fsX p content fh (d ++ [safetyNetName])
                  (d ++ [safetyNetName, indexFileName])).2 = { fs with
                 files := setA (setA fs.files ((d ++ [safetyNetName]) ++
                     [backup_filename ((pathFileName p).getD "file") (calculate_file_hash c2)])
                     c2)
                   (d ++ [safetyNetName, indexFileName])
                   (((lookupA fs.files (d ++ [safetyNetName, indexFileName])).getD []) ++
                     strToBytes (calculate_file_hash c2) ++ [10]),
                 dirs := if (d ++ [safetyNetName]) ∈ fs.dirs then fs.dirs
                         else (d ++ [safetyNetName]) :: fs.dirs }) := by
          rcases copyAndIndex_cases fsX p content fh (d ++ [safetyNetName])
              (d ++ [safetyNetName, indexFileName]) with hc | hc | hc
          · exact Or.inl hc
          · refine Or.inr ⟨content, hlook, Or.inl ?_⟩
            rw [hc, ← hgen, ← hfh]
            rfl
          · refine Or.inr ⟨content, hlook, Or.inr ?_⟩
            rw [hc]
            rw [show setA fsX.files ((d ++ [safetyNetName]) ++
                  [backup_filename ((pathFileName p).getD "file") fh]) content =
                setA fs.files ((d ++ [safetyNetName]) ++
                  [backup_filename ((pathFileName p).getD "file") fh]) content from by
              rw [hfiles]]
            rw [lookupA_setA_ne _ _ _ _ hbne2]
            rw [← hgen, ← hfh]
            rfl
        by_cases hex : fsX.pathExists (d ++ [safetyNetName, indexFileName]) = true
        · rw [if_pos hex]
          rcases hri : fsX.readFile (d ++ [safetyNetName, indexFileName]) with _ | ibytes
          · exact Or.inl rfl
          · dsimp only
            rcases hdec : asciiDecode ibytes with _ | itext
            · exact Or.inl rfl
            · dsimp only
              by_cases hany : ((rustLines itext).any fun line => decide (line = fh)) = true
              · rw [if_pos hany]
                exact Or.inl rfl
              · rw [if_neg hany]
                exact hfinal
        · rw [if_neg hex]
          exact hfinal


/-! ## C3: backup filename format -/

/-- C3: when a successful `create_backup` run actually copies (the file map
changed), the backup copy is stored under the derived name: for a file name
with a non-empty extension it is `stem_h8.ext`, and for a file name with no
extension it is `stem_h8.bak`, where `h8` is the first 8 hex characters of
the content hash. -/
theorem backup_filename_format (fs fs' : FS) (p d : FsPath) (content : List Nat)
    (hpar : pathParent p = some d)
    (hread : lookupA fs.files p = some content)
    (hrun : create_backup fs p = (.ok (), fs'))
    (hcopy : fs'.files ≠ fs.files) :
    (∀ e, (fileStemExt ((pathFileName p).getD "file")).2 = some e → e ≠ "" →
      lookupA fs'.files ((d ++ [safetyNetName]) ++
        [(fileStemExt ((pathFileName p).getD "file")).1 ++ "_" ++
         (⟨(calculate_file_hash content).data.take 8⟩ : String) ++ "." ++ e])
        = some content) ∧
    ((fileStemExt ((pathFileName p).getD "file")).2 = none →
      lookupA fs'.files ((d ++ [safetyNetName]) ++
        [(fileStemExt ((pathFileName p).getD "file")).1 ++ "_" ++
         (⟨(calculate_file_hash content).data.take 8⟩ : String) ++ ".bak"])
        = some content) := by
  obtain ⟨d2, content2, hpar2, hbd, hread2, hpden, hcase⟩ := create_backup_ok_spec fs p fs' hrun
  rw [hpar] at hpar2
  obtain rfl : d = d2 := Option.some.inj hpar2
  rw [hread] at hread2
  obtain rfl : content = content2 := Option.some.inj hread2
  rcases hcase with ⟨hfs, -⟩ | ⟨-, hfs⟩
  · exact absurd (by rw [hfs]) hcopy
  · have hbne : d ++ [safetyNetName, indexFileName] ≠
        (d ++ [safetyNetName]) ++ [backup_filename ((pathFileName p).getD "file")
          (calculate_file_hash content)] := by
      rw [show d ++ [safetyNetName, indexFileName] =
            (d ++ [safetyNetName]) ++ [indexFileName] from by simp]
      intro he
      have h2 := List.append_cancel_left he
      simp at h2
      exact backup_filename_ne_index _ _ (by rw [hash_data_length]; omega) h2.symm
    have hkey : lookupA fs'.files ((d ++ [safetyNetName]) ++
        [backup_filename ((pathFileName p).getD "file") (calculate_file_hash content)])
        = some content := by
      rw [hfs]
      show lookupA (setA _ _ _) _ = _
      rw [lookupA_setA_ne _ _ _ _ (Ne.symm hbne)]
      exact lookupA_setA_self _ _ _
    constructor
    · intro e hext hne
      rw [show (fileStemExt ((pathFileName p).getD "file")).1 ++ "_" ++
            (⟨(calculate_file_hash content).data.take 8⟩ : String) ++ "." ++ e =
          backup_filename ((pathFileName p).getD "file") (calculate_file_hash content) from by
        simp [backup_filename, hext, hne]]
      exact hkey
    · intro hext
      rw [show (fileStemExt ((pathFileName p).getD "file")).1 ++ "_" ++
            (⟨(calculate_file_hash content).data.take 8⟩ : String) ++ ".bak" =
          backup_filename ((pathFileName p).getD "file") (calculate_file_hash content) from by
        simp [backup_filename, hext]]
      exact hkey

/-- Witness for C3: `photo.jpg` keeps its extension, `README` gets `.bak`. -/
theorem backup_filename_format_witness :
    lookupA (create_backup fsFresh ["photo.jpg"]).2.files (([] ++ [safetyNetName]) ++
      [(fileStemExt ((pathFileName ["photo.jpg"]).getD "file")).1 ++ "_" ++
       (⟨(calculate_file_hash (strToBytes "hello")).data.take 8⟩ : String) ++ "." ++ "jpg"])
      = some (strToBytes "hello") ∧
    lookupA (create_backup fsReadme ["README"]).2.files (([] ++ [safetyNetName]) ++
      [(fileStemExt ((pathFileName ["README"]).getD "file")).1 ++ "_" ++
       (⟨(calculate_file_hash (strToBytes "hello")).data.take 8⟩ : String) ++ ".bak"])
      = some (strToBytes "hello") :=
  ⟨(backup_filename_format fsFresh (create_backup fsFresh ["photo.jpg"]).2 ["photo.jpg"] []
      (strToBytes "hello") (by decide) (by decide) (by decide) (by decide)).1
    "jpg" (by decide) (by decide),
   (backup_filename_format fsReadme (create_backup fsReadme ["README"]).2 ["README"] []
      (strToBytes "hello") (by decide) (by decide) (by decide) (by decide)).2
    (by decide)⟩



/-! ## C8: write effects (amended) -/

/-- Counterexample to C8 as stated: `create_backup` can modify an existing
backup file. Starting from a state reachable by backing up `a.txt` when its
content was "x51620" and then changing the file to "x73891" — the two
contents' SHA-256 digests share their first 8 hex characters but differ in
full — the run succeeds and overwrites the existing backup file
`a_05ffbb92.txt`, replacing its bytes. -/
theorem create_backup_modifies_existing_backup :
    calculate_file_hash (strToBytes "x51620") = collideHashA ∧
    (⟨(calculate_file_hash (strToBytes "x73891")).data.take 8⟩ : String) =
      (⟨collideHashA.data.take 8⟩ : String) ∧
    calculate_file_hash (strToBytes "x73891") ≠ collideHashA ∧
    lookupA fsCollide.files [".safety_net", "a_05ffbb92.txt"] = some (strToBytes "x51620") ∧
    (create_backup fsCollide ["a.txt"]).1 = .ok () ∧
    lookupA (create_backup fsCollide ["a.txt"]).2.files [".safety_net", "a_05ffbb92.txt"] =
      some (strToBytes "x73891") ∧
    strToBytes "x51620" ≠ strToBytes "x73891" :=
  ⟨by decide, by decide, by decide, by decide, by decide, by decide, by decide⟩

/-- The directory set after the idempotent `create_dir_all` either is
unchanged or gained exactly the sidecar directory. -/
theorem dirs_if_cases (fs : FS) (d : FsPath) :
    (if (d ++ [safetyNetName]) ∈ fs.dirs then fs.dirs
     else (d ++ [safetyNetName]) :: fs.dirs) = fs.dirs ∨
    (if (d ++ [safetyNetName]) ∈ fs.dirs then fs.dirs
     else (d ++ [safetyNetName]) :: fs.dirs) = (d ++ [safetyNetName]) :: fs.dirs := by
  split
  · exact Or.inl rfl
  · exact Or.inr rfl

/-- C8 (amended): on every call, successful or failing, `create_backup`
never modifies or deletes the original file and never changes the denied
set; its only possible write effects, in order, are creating the sidecar
directory, writing the one derived backup file — which may overwrite an
existing backup file whose derived name collides — and appending one hash
line to the index file. -/
theorem create_backup_write_effects (fs : FS) (p : FsPath) :
    ((create_backup fs p).2).denied = fs.denied ∧
    lookupA ((create_backup fs p).2).files p = lookupA fs.files p ∧
    (((create_backup fs p).2).dirs = fs.dirs ∨
      ∃ d, pathParent p = some d ∧
        ((create_backup fs p).2).dirs = (d ++ [safetyNetName]) :: fs.dirs) ∧
    (((create_backup fs p).2).files = fs.files ∨
      ∃ d content, pathParent p = some d ∧ lookupA fs.files p = some content ∧
        (((create_backup fs p).2).files = setA fs.files ((d ++ [safetyNetName]) ++
            [backup_filename ((pathFileName p).getD "file") (calculate_file_hash content)])
            content ∨
         ((create_backup fs p).2).files = setA (setA fs.files ((d ++ [safetyNetName]) ++
              [backup_filename ((pathFileName p).getD "file") (calculate_file_hash content)])
              content)
            (d ++ [safetyNetName, indexFileName])
            (((lookupA fs.files (d ++ [safetyNetName, indexFileName])).getD []) ++
              strToBytes (calculate_file_hash content) ++ [10]))) := by
  obtain ⟨hden, hp⟩ := create_backup_frame fs p
  refine ⟨hden, hp, ?_, ?_⟩
  · rcases create_backup_cases fs p with hc | ⟨d, hpar, hc | ⟨content, hlook, hc | hc⟩⟩
    · rw [hc]
      exact Or.inl rfl
    all_goals rw [hc]
    all_goals rcases dirs_if_cases fs d with hd | hd
    all_goals first
      | exact Or.inl hd
      | exact Or.inr ⟨d, hpar, hd⟩
  · rcases create_backup_cases fs p with hc | ⟨d, hpar, hc | ⟨content, hlook, hc | hc⟩⟩
    · rw [hc]
      exact Or.inl rfl
    · rw [hc]
      exact Or.inl rfl
    · exact Or.inr ⟨d, content, hpar, hlook, Or.inl (by rw [hc])⟩
    · exact Or.inr ⟨d, content, hpar, hlook, Or.inr (by rw [hc])⟩

/-! ## C7: index invariant -/

theorem lookupA_setA_isSome (l : List (FsPath × List Nat)) (p q : FsPath) (v : List Nat)
    (h : (lookupA l q).isSome = true) : (lookupA (setA l p v) q).isSome = true := by
  by_cases he : q = p
  · subst he
    rw [lookupA_setA_self]
    rfl
  · rw [lookupA_setA_ne _ _ _ _ he]
    exact h

theorem linesBytes_append_one (L : List String) (h : String) :
    linesBytes (L ++ [h]) = linesBytes L ++ (strToBytes h ++ [10]) := by
  simp [linesBytes, List.map_append, List.flatten_append]

/-- C7: every hash line of every sidecar index has a corresponding backup
file (a file in that sidecar, distinct from the index, whose derived name
embeds the hash); every `create_backup` call — successful, failing, or
interrupted between its two writes — preserves this invariant, because the
copy is written before the hash is appended; and the index only grows: the
old index bytes are a prefix of the new ones, no line is removed or
rewritten. -/
theorem index_invariant_preserved (fs : FS) (p : FsPath)
    (hwf : ∀ d, pathParent p = some d → IndexWF fs d)
    (hinv : BackupInv fs) :
    BackupInv (create_backup fs p).2 ∧
    (∀ dd old, lookupA fs.files (indexPathOf dd) = some old →
      ∃ tail, lookupA ((create_backup fs p).2).files (indexPathOf dd) = some (old ++ tail)) := by
  rcases create_backup_cases fs p with hc | ⟨d, hpar, hc | ⟨content, hlook, hc | hc⟩⟩
  · rw [hc]
    exact ⟨hinv, fun dd old hold => ⟨[], by rw [List.append_nil]; exact hold⟩⟩
  · -- only the sidecar directory was created
    have hfl : ((create_backup fs p).2).files = fs.files := by rw [hc]
    constructor
    · intro dd h hm
      rw [show indexLinesOf (create_backup fs p).2 dd = indexLinesOf fs dd from by
        unfold indexLinesOf
        rw [hfl]] at hm
      obtain ⟨n, hn1, hn2, hn3⟩ := hinv dd h hm
      exact ⟨n, hn1, hn2, by rw [hfl]; exact hn3⟩
    · intro dd old hold
      exact ⟨[], by rw [hfl, List.append_nil]; exact hold⟩
  · -- interrupted run: the copy was written, the index append failed;
    -- the index is unchanged, so the invariant survives exactly because
    -- the copy comes first
    set bn : String := backup_filename ((pathFileName p).getD "file")
        (calculate_file_hash content) with hbndef
    have hbnne : bn ≠ indexFileName := by
      rw [hbndef]
      exact backup_filename_ne_index _ _ (by rw [hash_data_length]; omega)
    have hfl : ((create_backup fs p).2).files =
        setA fs.files ((d ++ [safetyNetName]) ++ [bn]) content := by rw [hc]
    have hipdd : ∀ dd : FsPath, lookupA ((create_backup fs p).2).files (indexPathOf dd) =
        lookupA fs.files (indexPathOf dd) := by
      intro dd
      rw [hfl]
      rw [lookupA_setA_ne _ _ _ _ (by
        show indexPathOf dd ≠ _
        unfold indexPathOf
        rw [show (d ++ [safetyNetName]) ++ [bn] = d ++ [safetyNetName, bn] from by simp]
        intro he
        exact hbnne (sidecar_child_inj_gen he).2.2.symm)]
    constructor
    · intro dd h hm
      rw [show indexLinesOf (create_backup fs p).2 dd = indexLinesOf fs dd from by
        unfold indexLinesOf
        rw [hipdd]] at hm
      obtain ⟨n, hn1, hn2, hn3⟩ := hinv dd h hm
      refine ⟨n, hn1, hn2, ?_⟩
      rw [hfl]
      exact lookupA_setA_isSome _ _ _ _ hn3
    · intro dd old hold
      exact ⟨[], by rw [hipdd, List.append_nil]; exact hold⟩
  · -- full run: backup written, then the hash appended
    set bn : String := backup_filename ((pathFileName p).getD "file")
        (calculate_file_hash content) with hbndef
    set fh : String := calculate_file_hash content with hfhdef
    have hbnne : bn ≠ indexFileName := by
      rw [hbndef]
      exact backup_filename_ne_index _ _ (by rw [hfhdef, hash_data_length]; omega)
    have hfl : ((create_backup fs p).2).files =
        setA (setA fs.files ((d ++ [safetyNetName]) ++ [bn]) content)
          (d ++ [safetyNetName, indexFileName])
          (((lookupA fs.files (d ++ [safetyNetName, indexFileName])).getD []) ++
            strToBytes fh ++ [10]) := by rw [hc]
    have hipdd : ∀ dd : FsPath, dd ≠ d →
        lookupA ((create_backup fs p).2).files (indexPathOf dd) =
          lookupA fs.files (indexPathOf dd) := by
      intro dd hdd
      rw [hfl]
      rw [lookupA_setA_ne _ _ _ _ (by
        show indexPathOf dd ≠ _
        unfold indexPathOf
        intro he
        exact hdd (sidecar_child_inj_gen he).1)]
      rw [lookupA_setA_ne _ _ _ _ (by
        show indexPathOf dd ≠ _
        unfold indexPathOf
        rw [show (d ++ [safetyNetName]) ++ [bn] = d ++ [safetyNetName, bn] from by simp]
        intro he
        exact hbnne (sidecar_child_inj_gen he).2.2.symm)]
    have hipd : lookupA ((create_backup fs p).2).files (indexPathOf d) =
        some ((((lookupA fs.files (indexPathOf d)).getD [])) ++ strToBytes fh ++ [10]) := by
      rw [hfl]
      show lookupA (setA _ (d ++ [safetyNetName, indexFileName]) _) (indexPathOf d) = _
      unfold indexPathOf
      rw [lookupA_setA_self]
    have hbpfile : (lookupA ((create_backup fs p).2).files
        (d ++ [safetyNetName, bn])).isSome = true := by
      rw [hfl]
      rw [lookupA_setA_ne _ _ _ _ (by
        intro he
        exact hbnne (sidecar_child_inj he).2)]
      rw [show d ++ [safetyNetName, bn] = (d ++ [safetyNetName]) ++ [bn] from by simp]
      rw [lookupA_setA_self]
      rfl
    have hlines' : ∃ L', indexLinesOf (create_backup fs p).2 d = L' ∧
        (∀ l ∈ L', goodLine l) ∧
        (∀ h ∈ L', h ∈ indexLinesOf fs d ∨ h = fh) := by
      rcases hwf d hpar with hnone | ⟨L, hL, hLg⟩
      · refine ⟨[fh], ?_, ?_, ?_⟩
        · apply indexLinesOf_eq (create_backup fs p).2 d [fh]
          · rw [hipd]
            unfold indexPathOf at hnone ⊢
            rw [hnone]
            simp [linesBytes]
          · intro l hl
            rw [List.mem_singleton] at hl
            rw [hl, hfhdef]
            exact goodLine_hash content
        · intro l hl
          rw [List.mem_singleton] at hl
          rw [hl, hfhdef]
          exact goodLine_hash content
        · intro h hm
          rw [List.mem_singleton] at hm
          exact Or.inr hm
      · have hgood' : ∀ l ∈ L ++ [fh], goodLine l := by
          intro l hl
          rcases List.mem_append.mp hl with hl | hl
          · exact hLg l hl
          · rw [List.mem_singleton] at hl
            rw [hl, hfhdef]
            exact goodLine_hash content
        refine ⟨L ++ [fh], ?_, hgood', ?_⟩
        · apply indexLinesOf_eq (create_backup fs p).2 d (L ++ [fh])
          · rw [hipd]
            unfold indexPathOf at hL ⊢
            rw [hL]
            rw [linesBytes_append_one]
            simp [List.append_assoc]
          · exact hgood'
        · intro h hm
          rcases List.mem_append.mp hm with hm | hm
          · left
            rw [indexLinesOf_eq fs d L hL hLg]
            exact hm
          · rw [List.mem_singleton] at hm
            exact Or.inr hm
    constructor
    · intro dd h hm
      by_cases hdd : dd = d
      · subst hdd
        obtain ⟨L', hL'eq, hL'good, hL'mem⟩ := hlines'
        rw [hL'eq] at hm
        rcases hL'mem h hm with hold | rfl
        · obtain ⟨n, hn1, hn2, hn3⟩ := hinv dd h hold
          refine ⟨n, hn1, hn2, ?_⟩
          rw [hfl]
          apply lookupA_setA_isSome
          apply lookupA_setA_isSome
          exact hn3
        · refine ⟨bn, hbnne, ⟨(pathFileName p).getD "file", hbndef⟩, hbpfile⟩
      · rw [show indexLinesOf (create_backup fs p).2 dd = indexLinesOf fs dd from by
          unfold indexLinesOf
          rw [hipdd dd hdd]] at hm
        obtain ⟨n, hn1, hn2, hn3⟩ := hinv dd h hm
        refine ⟨n, hn1, hn2, ?_⟩
        rw [hfl]
        apply lookupA_setA_isSome
        apply lookupA_setA_isSome
        exact hn3
    · intro dd old hold
      by_cases hdd : dd = d
      · subst hdd
        refine ⟨strToBytes fh ++ [10], ?_⟩
        rw [hipd, hold]
        simp [List.append_assoc]
      · exact ⟨[], by rw [hipdd dd hdd, List.append_nil]; exact hold⟩

/-- `fsFull` satisfies the index invariant: its one indexed hash has the
backup copy `photo_2cf24dba.jpg`. -/
theorem fsFull_inv : BackupInv fsFull := by
  intro dd h hm
  by_cases hd : dd = []
  · subst hd
    rw [show indexLinesOf fsFull [] = [helloHash] from by decide] at hm
    rw [List.mem_singleton] at hm
    subst hm
    exact ⟨"photo_2cf24dba.jpg", by decide, ⟨"photo.jpg", by decide⟩, by decide⟩
  · exfalso
    have h1 : (["photo.jpg"] : FsPath) ≠ indexPathOf dd := by
      intro he
      have := congrArg List.length he
      simp [indexPathOf] at this
    have h2 : ([".safety_net", "photo_2cf24dba.jpg"] : FsPath) ≠ indexPathOf dd := by
      intro he
      have := congrArg List.length he
      simp [indexPathOf, List.length_append] at this
      exact hd this.symm.symm
    have h3 : ([".safety_net", "index.txt"] : FsPath) ≠ indexPathOf dd := by
      intro he
      have := congrArg List.length he
      simp [indexPathOf, List.length_append] at this
      exact hd this.symm.symm
    rw [show indexLinesOf fsFull dd = [] from by
      unfold indexLinesOf
      rw [show lookupA fsFull.files (indexPathOf dd) = none from by
        show lookupA [(["photo.jpg"], _), ([".safety_net", "photo_2cf24dba.jpg"], _),
          ([".safety_net", "index.txt"], _)] (indexPathOf dd) = none
        simp [lookupA, h1, h2, h3]]] at hm
    exact List.not_mem_nil _ hm

/-- Witness for C7: a backup call on the fully backed-up state. -/
theorem index_invariant_preserved_witness :
    BackupInv (create_backup fsFull ["photo.jpg"]).2 ∧
    (∀ dd old, lookupA fsFull.files (indexPathOf dd) = some old →
      ∃ tail, lookupA ((create_backup fsFull ["photo.jpg"]).2).files (indexPathOf dd) =
        some (old ++ tail)) :=
  index_invariant_preserved fsFull ["photo.jpg"]
    (by
      intro d hd
      rw [show pathParent ["photo.jpg"] = some [] from by decide] at hd
      obtain rfl : ([] : FsPath) = d := Option.some.inj hd
      exact Or.inr ⟨[helloHash], by decide, by
        intro l hl
        rw [List.mem_singleton] at hl
        subst hl
        show ∀ c ∈ helloHash.data, c.toNat < 128 ∧ c ≠ '\n' ∧ c ≠ '\r'
        decide⟩)
    fsFull_inv

end ImageViewer
